import Mathlib

/-!
Verification of the OrionSupport fuzzy-search engine (`search_solution.py`,
`bot.py`) against its natural-language specification.

Modelling conventions:
* Python strings are sequences of Unicode code points, embedded as `List Nat`.
* Python floats produced by `difflib` ratios are embedded as exact rationals
  (`ℚ`); the literal `0.95` becomes `19/20`.
* Python dicts produced by `csv.DictReader` have unique keys in insertion
  order; a row is embedded as an ordered association list
  `List (List Nat × List Nat)`.
* `None` becomes `Option.none`; Python truthiness of a string/list is
  non-emptiness.
-/

namespace Orion

/-- Code points of a Lean string literal, used to write concrete inputs. -/
def codes (s : String) : List Nat := s.data.map Char.toNat

/-- Embeds Python `str.lower` on the alphabets this program handles:
ASCII `A`–`Z`, Cyrillic `А`–`Я` (U+0410–U+042F) and `Ё` (U+0401).
Other code points are unchanged. -/
def pyLower (c : Nat) : Nat :=
  if 65 ≤ c ∧ c ≤ 90 then c + 32
  else if 1040 ≤ c ∧ c ≤ 1071 then c + 32
  else if c = 1025 then 1105
  else c

/-- Embeds the whitespace class of Python `str.strip` and regex `\s`:
tab, LF, VT, FF, CR, space and no-break space. -/
def pyIsSpace (c : Nat) : Bool :=
  c = 32 ∨ c = 9 ∨ c = 10 ∨ c = 11 ∨ c = 12 ∨ c = 13 ∨ c = 160

/-- Embeds the word-character class of regex `\w` (which already subsumes the
redundant `а-яёa-z0-9` of the source pattern, line 35) on the alphabets this
program handles: digits, `A`–`Z`, `a`–`z`, underscore, Cyrillic
U+0410–U+044F, `Ё` and `ё`. -/
def pyIsWord (c : Nat) : Bool :=
  (48 ≤ c ∧ c ≤ 57) ∨ (65 ≤ c ∧ c ≤ 90) ∨ (97 ≤ c ∧ c ≤ 122) ∨ c = 95 ∨
  (1040 ≤ c ∧ c ≤ 1103) ∨ c = 1025 ∨ c = 1105

/-- Embeds Python `str.strip()` (drop leading and trailing whitespace). -/
def strip (l : List Nat) : List Nat :=
  ((l.dropWhile (fun c => pyIsSpace c)).reverse.dropWhile
    (fun c => pyIsSpace c)).reverse

/-- Embeds `re.sub(r"\s+", " ", ·)`: every maximal run of whitespace becomes
one space.  The flag records whether the previous character was whitespace. -/
def collapse : Bool → List Nat → List Nat
  | _, [] => []
  | prev, c :: rest =>
    if pyIsSpace c then
      if prev then collapse true rest else 32 :: collapse true rest
    else c :: collapse false rest

/-- Embeds `re.sub(r"[^\w\sа-яёa-z0-9]", " ", ·, flags=re.IGNORECASE)`:
every character that is neither a word character nor whitespace becomes a
space. -/
def unspecial (l : List Nat) : List Nat :=
  l.map (fun c => if pyIsWord c || pyIsSpace c then c else 32)

/-- Embeds `normalize` (search_solution.py lines 32–37):
lower-case and strip, collapse whitespace, replace non-word characters by
spaces, collapse whitespace again and strip. -/
def normalize (s : List Nat) : List Nat :=
  strip (collapse false (unspecial (collapse false (strip (s.map pyLower)))))

example : normalize (codes "  Ab,,  c ") = codes "ab c" := by decide
example : normalize (codes "Проектор  ГОРИТ") = codes "проектор горит" := by
  decide

/-! ### Character-level lemmas -/

theorem pyLower_pyLower (c : Nat) : pyLower (pyLower c) = pyLower c := by
  unfold pyLower
  split_ifs <;> omega

theorem pyIsWord_not_pyIsSpace {c : Nat} (h : pyIsWord c = true) :
    pyIsSpace c = false := by
  simp only [pyIsWord, pyIsSpace, decide_eq_true_eq, decide_eq_false_iff_not] at *
  omega

theorem pyIsSpace_32 : pyIsSpace 32 = true := by decide

theorem pyLower_32 : pyLower 32 = 32 := by decide

/-! ### Structure of `normalize` output -/

theorem head?_dropWhile_eq_false {p : Nat → Bool} :
    ∀ {l : List Nat} {h : Nat}, (l.dropWhile p).head? = some h → p h = false := by
  intro l
  induction l with
  | nil => intro h hh; simp [List.dropWhile] at hh
  | cons c rest ih =>
    intro h hh
    by_cases hc : p c
    · rw [List.dropWhile_cons, if_pos hc] at hh
      exact ih hh
    · rw [List.dropWhile_cons, if_neg hc] at hh
      simp only [List.head?_cons, Option.some.injEq] at hh
      rw [← hh]
      exact Bool.not_eq_true _ ▸ (by simpa using hc)

theorem strip_contained (l : List Nat) : strip l <:+: l := by
  refine ⟨l.takeWhile (fun c => pyIsSpace c),
    ((l.dropWhile (fun c => pyIsSpace c)).reverse.takeWhile
      (fun c => pyIsSpace c)).reverse, ?_⟩
  unfold strip
  rw [List.append_assoc, ← List.reverse_append, List.takeWhile_append_dropWhile,
    List.reverse_reverse, List.takeWhile_append_dropWhile]

theorem mem_strip {c : Nat} {l : List Nat} (h : c ∈ strip l) : c ∈ l := by
  obtain ⟨s, t, hst⟩ := strip_contained l
  rw [← hst]
  simp only [List.mem_append]
  exact Or.inl (Or.inr h)

theorem strip_head {l : List Nat} {h : Nat}
    (hh : (strip l).head? = some h) : pyIsSpace h = false := by
  unfold strip at hh
  rw [List.head?_reverse] at hh
  obtain ⟨pre, hpre⟩ := List.dropWhile_suffix
    (l := (l.dropWhile (fun c => pyIsSpace c)).reverse) (fun c => pyIsSpace c)
  have h2 : ((l.dropWhile (fun c => pyIsSpace c)).reverse).getLast? = some h := by
    rw [← hpre, List.getLast?_append, hh]; rfl
  rw [List.getLast?_reverse] at h2
  exact head?_dropWhile_eq_false h2

theorem strip_getLast {l : List Nat} {h : Nat}
    (hh : (strip l).getLast? = some h) : pyIsSpace h = false := by
  unfold strip at hh
  rw [List.getLast?_reverse] at hh
  exact head?_dropWhile_eq_false hh

theorem mem_collapse {c : Nat} :
    ∀ {l : List Nat} {flag : Bool}, c ∈ collapse flag l →
      c = 32 ∨ (c ∈ l ∧ pyIsSpace c = false) := by
  intro l
  induction l with
  | nil => intro flag h; simp [collapse] at h
  | cons d rest ih =>
    intro flag h
    by_cases hd : pyIsSpace d
    · cases flag with
      | true =>
        rw [collapse, if_pos hd, if_pos rfl] at h
        rcases ih h with h' | ⟨h', hns⟩
        · exact Or.inl h'
        · exact Or.inr ⟨List.mem_cons_of_mem _ h', hns⟩
      | false =>
        rw [collapse, if_pos hd, if_neg (by simp)] at h
        rcases List.mem_cons.1 h with h' | h'
        · exact Or.inl h'
        · rcases ih h' with h'' | ⟨h'', hns⟩
          · exact Or.inl h''
          · exact Or.inr ⟨List.mem_cons_of_mem _ h'', hns⟩
    · rw [collapse, if_neg hd] at h
      rcases List.mem_cons.1 h with h' | h'
      · exact Or.inr ⟨h' ▸ List.mem_cons_self _ _, h' ▸ (by simpa using hd)⟩
      · rcases ih h' with h'' | ⟨h'', hns⟩
        · exact Or.inl h''
        · exact Or.inr ⟨List.mem_cons_of_mem _ h'', hns⟩

theorem mem_unspecial {c : Nat} {l : List Nat} (h : c ∈ unspecial l) :
    c = 32 ∨ (c ∈ l ∧ (pyIsWord c || pyIsSpace c) = true) := by
  unfold unspecial at h
  obtain ⟨d, hd, hc⟩ := List.mem_map.1 h
  by_cases hw : (pyIsWord d || pyIsSpace d) = true
  · rw [if_pos hw] at hc
    exact Or.inr ⟨hc ▸ hd, hc ▸ hw⟩
  · rw [if_neg hw] at hc
    exact Or.inl hc.symm

theorem normalize_chars {s : List Nat} :
    ∀ c ∈ normalize s, (pyIsWord c = true ∧ pyLower c = c) ∨ c = 32 := by
  intro c hc
  unfold normalize at hc
  have h1 := mem_strip hc
  rcases mem_collapse h1 with h | ⟨h2, hns⟩
  · exact Or.inr h
  rcases mem_unspecial h2 with h | ⟨h3, hw⟩
  · exact Or.inr h
  have hword : pyIsWord c = true := by
    rcases Bool.or_eq_true_iff.1 hw with h' | h'
    · exact h'
    · rw [h'] at hns; cases hns
  refine Or.inl ⟨hword, ?_⟩
  rcases mem_collapse h3 with h | ⟨h4, _⟩
  · rw [h] at hns; rw [pyIsSpace_32] at hns; cases hns
  have h5 := mem_strip h4
  obtain ⟨d, _, rfl⟩ := List.mem_map.1 h5
  exact pyLower_pyLower d

theorem collapse_true_head :
    ∀ {l : List Nat} {h : Nat}, (collapse true l).head? = some h →
      pyIsSpace h = false := by
  intro l
  induction l with
  | nil => intro h hh; simp [collapse] at hh
  | cons d rest ih =>
    intro h hh
    by_cases hd : pyIsSpace d
    · rw [collapse, if_pos hd, if_pos rfl] at hh
      exact ih hh
    · rw [collapse, if_neg hd] at hh
      simp only [List.head?_cons, Option.some.injEq] at hh
      rw [← hh]
      simpa using hd

theorem collapse_chain :
    ∀ (l : List Nat) (flag : Bool),
      List.Chain' (fun a b => ¬(a = 32 ∧ b = 32)) (collapse flag l) := by
  intro l
  induction l with
  | nil => intro flag; simp [collapse]
  | cons d rest ih =>
    intro flag
    by_cases hd : pyIsSpace d
    · cases flag with
      | true => rw [collapse, if_pos hd, if_pos rfl]; exact ih true
      | false =>
        rw [collapse, if_pos hd, if_neg (by simp)]
        rw [List.chain'_cons']
        refine ⟨?_, ih true⟩
        intro y hy h32
        have := collapse_true_head hy
        rw [h32.2, pyIsSpace_32] at this
        cases this
    · rw [collapse, if_neg hd]
      rw [List.chain'_cons']
      refine ⟨?_, ih false⟩
      intro y _ h32
      rw [h32.1, pyIsSpace_32] at hd
      exact hd rfl

/-- The invariant satisfied by every `normalize` output: lower-cased word
characters and single interior spaces only. -/
def Canon (l : List Nat) : Prop :=
  (∀ c ∈ l, (pyIsWord c = true ∧ pyLower c = c) ∨ c = 32) ∧
  List.Chain' (fun a b => ¬(a = 32 ∧ b = 32)) l ∧
  (∀ h, l.head? = some h → h ≠ 32) ∧
  (∀ h, l.getLast? = some h → h ≠ 32)

theorem normalize_canon (s : List Nat) : Canon (normalize s) := by
  refine ⟨normalize_chars, ?_, ?_, ?_⟩
  · have hch := collapse_chain
      (unspecial (collapse false (strip (s.map pyLower)))) false
    exact List.Chain'.infix hch (strip_contained _)
  · intro h hh h32
    have hsp : pyIsSpace h = false := strip_head hh
    rw [h32, pyIsSpace_32] at hsp
    cases hsp
  · intro h hh h32
    have hsp : pyIsSpace h = false := strip_getLast hh
    rw [h32, pyIsSpace_32] at hsp
    cases hsp

theorem map_pyLower_eq_self {l : List Nat}
    (h : ∀ c ∈ l, (pyIsWord c = true ∧ pyLower c = c) ∨ c = 32) :
    l.map pyLower = l := by
  induction l with
  | nil => rfl
  | cons c rest ih =>
    simp only [List.map_cons, List.cons.injEq]
    refine ⟨?_, ih (fun d hd => h d (List.mem_cons_of_mem _ hd))⟩
    rcases h c (List.mem_cons_self _ _) with ⟨_, hfix⟩ | h32
    · exact hfix
    · rw [h32]; exact pyLower_32

theorem dropWhile_eq_self_of_head {p : Nat → Bool} {l : List Nat}
    (h : ∀ c, l.head? = some c → p c = false) : l.dropWhile p = l := by
  cases l with
  | nil => rfl
  | cons c rest =>
    rw [List.dropWhile_cons, if_neg]
    rw [h c rfl]
    simp

theorem strip_eq_self {l : List Nat}
    (hh : ∀ c, l.head? = some c → pyIsSpace c = false)
    (hl : ∀ c, l.getLast? = some c → pyIsSpace c = false) : strip l = l := by
  unfold strip
  rw [dropWhile_eq_self_of_head hh,
    dropWhile_eq_self_of_head (fun c hc => hl c (by rwa [List.head?_reverse] at hc)),
    List.reverse_reverse]

theorem collapse_eq_self :
    ∀ (l : List Nat) (flag : Bool),
      (∀ c ∈ l, (pyIsWord c = true ∧ pyLower c = c) ∨ c = 32) →
      List.Chain' (fun a b => ¬(a = 32 ∧ b = 32)) l →
      (flag = true → ∀ h, l.head? = some h → h ≠ 32) →
      collapse flag l = l := by
  intro l
  induction l with
  | nil => intro flag _ _ _; rfl
  | cons c rest ih =>
    intro flag hchars hchain hflag
    by_cases hsp : pyIsSpace c
    · have hc32 : c = 32 := by
        rcases hchars c (List.mem_cons_self _ _) with ⟨hw, _⟩ | h32
        · rw [pyIsWord_not_pyIsSpace hw] at hsp; cases hsp
        · exact h32
      cases flag with
      | true => exact absurd hc32 (hflag rfl c rfl)
      | false =>
        rw [collapse, if_pos hsp, if_neg (by simp), hc32]
        congr 1
        have hcc := List.chain'_cons'.1 hchain
        refine ih true (fun d hd => hchars d (List.mem_cons_of_mem _ hd))
          hcc.2 (fun _ h hh => ?_)
        intro h32
        exact (hcc.1 h hh) ⟨hc32, h32⟩
    · rw [collapse, if_neg hsp]
      congr 1
      exact ih false (fun d hd => hchars d (List.mem_cons_of_mem _ hd))
        (List.chain'_cons'.1 hchain).2 (fun h => by cases h)

theorem unspecial_eq_self {l : List Nat}
    (h : ∀ c ∈ l, (pyIsWord c = true ∧ pyLower c = c) ∨ c = 32) :
    unspecial l = l := by
  induction l with
  | nil => rfl
  | cons c rest ih =>
    unfold unspecial
    simp only [List.map_cons, List.cons.injEq]
    constructor
    · rcases h c (List.mem_cons_self _ _) with ⟨hw, _⟩ | h32
      · rw [if_pos]; rw [hw]; simp
      · rw [if_pos]; rw [h32, pyIsSpace_32]; simp
    · exact ih (fun d hd => h d (List.mem_cons_of_mem _ hd))

theorem normalize_eq_self {l : List Nat} (h : Canon l) : normalize l = l := by
  obtain ⟨hc, hchain, hhead, hlast⟩ := h
  have hns_head : ∀ c, l.head? = some c → pyIsSpace c = false := by
    intro c hc'
    rcases hc c (List.mem_of_mem_head? hc') with ⟨hw, _⟩ | h32
    · exact pyIsWord_not_pyIsSpace hw
    · exact absurd h32 (hhead c hc')
  have hns_last : ∀ c, l.getLast? = some c → pyIsSpace c = false := by
    intro c hc'
    rcases hc c (List.mem_of_getLast?_eq_some hc') with ⟨hw, _⟩ | h32
    · exact pyIsWord_not_pyIsSpace hw
    · exact absurd h32 (hlast c hc')
  unfold normalize
  rw [map_pyLower_eq_self hc, strip_eq_self hns_head hns_last,
    collapse_eq_self l false hc hchain (fun h => by cases h),
    unspecial_eq_self hc,
    collapse_eq_self l false hc hchain (fun h => by cases h),
    strip_eq_self hns_head hns_last]

theorem normalize_normalize (s : List Nat) :
    normalize (normalize s) = normalize s :=
  normalize_eq_self (normalize_canon s)

theorem normalize_map_pyLower (s : List Nat) :
    normalize (s.map pyLower) = normalize s := by
  unfold normalize
  rw [List.map_map]
  have hfun : pyLower ∘ pyLower = pyLower := funext pyLower_pyLower
  rw [hfun]

/-! ### Similarity (embedding of `difflib.SequenceMatcher(None, a, b).ratio()`)

The source computes the Ratcliff–Obershelp ratio `2*M/T` where `T` is the
total length of the two strings and `M` is the number of matched characters:
`get_matching_blocks` repeatedly takes the longest matching block — with
`isjunk=None` the block `find_longest_match` returns is the lexicographically
first `(i, j)` attaining the maximal common-substring length — and recurses
on the pieces to its left and right.  The `autojunk` heuristic (which only
affects candidates of length ≥ 200 and only the exact score values, never
the facts proved here) is not modelled.  The recursion is driven by explicit
fuel `a.length + b.length`, which strictly dominates the recursion depth
because every recursive call strips off a non-empty block. -/

/-- Length of the longest common prefix of two strings. -/
def matchLen : List Nat → List Nat → Nat
  | a :: as, b :: bs => if a = b then matchLen as bs + 1 else 0
  | _, _ => 0

/-- All `(i, j)` index pairs of two strings, in lexicographic order —
the scan order of `find_longest_match`. -/
def allPairs (a b : List Nat) : List (Nat × Nat) :=
  (List.range a.length).flatMap
    (fun i => (List.range b.length).map (fun j => (i, j)))

/-- Length of the common substring of `a` and `b` starting at positions
`p.1` and `p.2`. -/
def blockLen (a b : List Nat) (p : Nat × Nat) : Nat :=
  matchLen (a.drop p.1) (b.drop p.2)

/-- The maximal common-substring length over all starting positions. -/
def maxBlockLen (a b : List Nat) : Nat :=
  ((allPairs a b).map (blockLen a b)).foldr max 0

/-- Embeds `find_longest_match` over whole strings: the first `(i, j)` in
scan order attaining the maximal length, together with that length. -/
def findBestBlock (a b : List Nat) : Nat × Nat × Nat :=
  match (allPairs a b).find? (fun p => blockLen a b p == maxBlockLen a b) with
  | some p => (p.1, p.2, blockLen a b p)
  | none => (0, 0, 0)

/-- Embeds the recursion of `get_matching_blocks`, summing the sizes of all
matching blocks; the fuel argument bounds the recursion depth. -/
def matchingTotalFuel : Nat → List Nat → List Nat → Nat
  | 0, _, _ => 0
  | fuel + 1, a, b =>
    if (findBestBlock a b).2.2 = 0 then 0
    else
      (findBestBlock a b).2.2 +
        matchingTotalFuel fuel (a.take (findBestBlock a b).1)
          (b.take (findBestBlock a b).2.1) +
        matchingTotalFuel fuel
          (a.drop ((findBestBlock a b).1 + (findBestBlock a b).2.2))
          (b.drop ((findBestBlock a b).2.1 + (findBestBlock a b).2.2))

/-- Total number of matched characters between `a` and `b`. -/
def matchingTotal (a b : List Nat) : Nat :=
  matchingTotalFuel (a.length + b.length) a b

/-- Embeds `similarity` (search_solution.py lines 40–41):
`SequenceMatcher.ratio() = 2*M/T`, and `1` when both strings are empty. -/
def similarity (a b : List Nat) : ℚ :=
  if a.length + b.length = 0 then 1
  else 2 * (matchingTotal a b : ℚ) / ((a.length : ℚ) + (b.length : ℚ))

example : matchingTotal (codes "abcd") (codes "abcd") = 4 := by decide
example : matchingTotal (codes "ab") (codes "xy") = 0 := by decide
example : matchingTotal (codes "abab") (codes "ab") = 2 := by decide

theorem matchLen_le_left : ∀ (a b : List Nat), matchLen a b ≤ a.length := by
  intro a
  induction a with
  | nil => intro b; cases b <;> simp [matchLen]
  | cons x xs ih =>
    intro b
    cases b with
    | nil => simp [matchLen]
    | cons y ys =>
      rw [matchLen]
      split
      · simpa using ih ys
      · simp

theorem matchLen_le_right : ∀ (a b : List Nat), matchLen a b ≤ b.length := by
  intro a
  induction a with
  | nil => intro b; cases b <;> simp [matchLen]
  | cons x xs ih =>
    intro b
    cases b with
    | nil => simp [matchLen]
    | cons y ys =>
      rw [matchLen]
      split
      · simpa using ih ys
      · simp

theorem matchLen_self : ∀ (a : List Nat), matchLen a a = a.length := by
  intro a
  induction a with
  | nil => rfl
  | cons x xs ih => rw [matchLen, if_pos rfl, ih]; rfl

theorem le_foldr_max {x : Nat} : ∀ {l : List Nat}, x ∈ l → x ≤ l.foldr max 0 := by
  intro l
  induction l with
  | nil => intro h; cases h
  | cons y ys ih =>
    intro h
    rcases List.mem_cons.1 h with rfl | h'
    · exact Nat.le_max_left _ _
    · exact Nat.le_trans (ih h') (Nat.le_max_right _ _)

theorem foldr_max_le {m : Nat} : ∀ {l : List Nat},
    (∀ x ∈ l, x ≤ m) → l.foldr max 0 ≤ m := by
  intro l
  induction l with
  | nil => intro _; exact Nat.zero_le m
  | cons y ys ih =>
    intro h
    rw [List.foldr_cons]
    exact Nat.max_le.2 ⟨h y (List.mem_cons_self _ _),
      ih (fun x hx => h x (List.mem_cons_of_mem _ hx))⟩

/-- If the best block is non-empty, it lies inside both strings. -/
theorem findBestBlock_bounds {a b : List Nat}
    (h : (findBestBlock a b).2.2 ≠ 0) :
    (findBestBlock a b).1 + (findBestBlock a b).2.2 ≤ a.length ∧
    (findBestBlock a b).2.1 + (findBestBlock a b).2.2 ≤ b.length := by
  cases hf : (allPairs a b).find? (fun p => blockLen a b p == maxBlockLen a b) with
  | none =>
    exfalso
    apply h
    unfold findBestBlock
    rw [hf]
  | some p =>
    have hfb : findBestBlock a b = (p.1, p.2, blockLen a b p) := by
      unfold findBestBlock
      rw [hf]
    have h1 : blockLen a b p ≤ a.length - p.1 := by
      have := matchLen_le_left (a.drop p.1) (b.drop p.2)
      unfold blockLen
      rwa [List.length_drop] at this
    have h2 : blockLen a b p ≤ b.length - p.2 := by
      have := matchLen_le_right (a.drop p.1) (b.drop p.2)
      unfold blockLen
      rwa [List.length_drop] at this
    have hk : blockLen a b p ≠ 0 := by rw [hfb] at h; exact h
    rw [hfb]
    refine ⟨?_, ?_⟩
    · show p.1 + blockLen a b p ≤ a.length
      omega
    · show p.2 + blockLen a b p ≤ b.length
      omega

theorem matchingTotalFuel_le_left :
    ∀ (fuel : Nat) (a b : List Nat), matchingTotalFuel fuel a b ≤ a.length := by
  intro fuel
  induction fuel with
  | zero => intro a b; exact Nat.zero_le _
  | succ f ih =>
    intro a b
    rw [matchingTotalFuel]
    split
    · exact Nat.zero_le _
    · rename_i hk
      have hb := findBestBlock_bounds (a := a) (b := b) hk
      have h1 := ih (a.take (findBestBlock a b).1) (b.take (findBestBlock a b).2.1)
      have h2 := ih (a.drop ((findBestBlock a b).1 + (findBestBlock a b).2.2))
        (b.drop ((findBestBlock a b).2.1 + (findBestBlock a b).2.2))
      rw [List.length_take] at h1
      rw [List.length_drop] at h2
      omega

theorem matchingTotalFuel_le_right :
    ∀ (fuel : Nat) (a b : List Nat), matchingTotalFuel fuel a b ≤ b.length := by
  intro fuel
  induction fuel with
  | zero => intro a b; exact Nat.zero_le _
  | succ f ih =>
    intro a b
    rw [matchingTotalFuel]
    split
    · exact Nat.zero_le _
    · rename_i hk
      have hb := findBestBlock_bounds (a := a) (b := b) hk
      have h1 := ih (a.take (findBestBlock a b).1) (b.take (findBestBlock a b).2.1)
      have h2 := ih (a.drop ((findBestBlock a b).1 + (findBestBlock a b).2.2))
        (b.drop ((findBestBlock a b).2.1 + (findBestBlock a b).2.2))
      rw [List.length_take] at h1
      rw [List.length_drop] at h2
      omega

theorem maxBlockLen_self {a : List Nat} (h : a ≠ []) :
    maxBlockLen a a = a.length := by
  apply Nat.le_antisymm
  · apply foldr_max_le
    intro x hx
    obtain ⟨p, _, rfl⟩ := List.mem_map.1 hx
    have := matchLen_le_left (a.drop p.1) (a.drop p.2)
    rw [List.length_drop] at this
    unfold blockLen
    omega
  · apply le_foldr_max
    apply List.mem_map.2
    refine ⟨(0, 0), ?_, ?_⟩
    · unfold allPairs
      apply List.mem_flatMap.2
      refine ⟨0, ?_, ?_⟩
      · exact List.mem_range.2 (List.length_pos.2 h)
      · exact List.mem_map.2 ⟨0, List.mem_range.2 (List.length_pos.2 h), rfl⟩
    · unfold blockLen
      simp [matchLen_self]

theorem foldr_max_mem : ∀ {l : List Nat}, l ≠ [] → l.foldr max 0 ∈ l := by
  intro l
  induction l with
  | nil => intro h; cases h rfl
  | cons y ys ih =>
    intro _
    rw [List.foldr_cons]
    cases ys with
    | nil => rw [List.foldr_nil, Nat.max_zero]; exact List.mem_cons_self _ _
    | cons z zs =>
      rcases Nat.le_total y ((z :: zs).foldr max 0) with hle | hle
      · rw [Nat.max_eq_right hle]
        exact List.mem_cons_of_mem _ (ih (by simp))
      · rw [Nat.max_eq_left hle]
        exact List.mem_cons_self _ _

theorem findBestBlock_self {a : List Nat} (h : a ≠ []) :
    findBestBlock a a = (0, 0, a.length) := by
  have hn : 0 < a.length := List.length_pos.2 h
  have hmax := maxBlockLen_self h
  have hne : (allPairs a a).map (blockLen a a) ≠ [] := by
    intro hemp
    have h0 : maxBlockLen a a = 0 := by
      unfold maxBlockLen
      rw [hemp]
      rfl
    omega
  have hmem : maxBlockLen a a ∈ (allPairs a a).map (blockLen a a) :=
    foldr_max_mem hne
  obtain ⟨p, hp, hbp⟩ := List.mem_map.1 hmem
  have hsome : ((allPairs a a).find?
      (fun q => blockLen a a q == maxBlockLen a a)).isSome := by
    rw [List.find?_isSome]
    exact ⟨p, hp, by simp [hbp]⟩
  obtain ⟨q, hq⟩ := Option.isSome_iff_exists.1 hsome
  have hpred := List.find?_some hq
  have hq_eq : blockLen a a q = a.length := by
    rw [← hmax]
    simpa using hpred
  have hle1 := matchLen_le_left (a.drop q.1) (a.drop q.2)
  have hle2 := matchLen_le_right (a.drop q.1) (a.drop q.2)
  rw [List.length_drop] at hle1 hle2
  have hq1 : q.1 = 0 := by unfold blockLen at hq_eq; omega
  have hq2 : q.2 = 0 := by unfold blockLen at hq_eq; omega
  unfold findBestBlock
  rw [hq]
  show (q.1, q.2, blockLen a a q) = (0, 0, a.length)
  rw [hq1, hq2, hq_eq]

theorem matchingTotalFuel_nil : ∀ (fuel : Nat),
    matchingTotalFuel fuel [] [] = 0 := by
  intro fuel
  cases fuel <;> rfl

theorem matchingTotal_self (a : List Nat) : matchingTotal a a = a.length := by
  unfold matchingTotal
  by_cases h : a = []
  · subst h; rfl
  · have hn : 0 < a.length := List.length_pos.2 h
    obtain ⟨f, hf⟩ : ∃ f, a.length + a.length = f + 1 := ⟨a.length + a.length - 1, by omega⟩
    rw [hf, matchingTotalFuel, findBestBlock_self h]
    show (if a.length = 0 then 0 else
      a.length + matchingTotalFuel f (a.take 0) (a.take 0) +
        matchingTotalFuel f (a.drop (0 + a.length)) (a.drop (0 + a.length))) = a.length
    rw [if_neg (by omega), List.take_zero, Nat.zero_add, List.drop_length,
      matchingTotalFuel_nil]
    omega

/-- C9 helper: similarity scores are non-negative. -/
theorem similarity_nonneg (a b : List Nat) : 0 ≤ similarity a b := by
  unfold similarity
  split
  · norm_num
  · positivity

/-- C9 helper: similarity scores are at most one. -/
theorem similarity_le_one (a b : List Nat) : similarity a b ≤ 1 := by
  unfold similarity
  split
  · norm_num
  · rename_i hne
    have hpos : (0 : ℚ) < (a.length : ℚ) + (b.length : ℚ) := by
      have : 0 < a.length + b.length := Nat.pos_of_ne_zero hne
      exact_mod_cast this
    rw [div_le_one hpos]
    have h1 := matchingTotalFuel_le_left (a.length + b.length) a b
    have h2 := matchingTotalFuel_le_right (a.length + b.length) a b
    have hle : 2 * matchingTotal a b ≤ a.length + b.length := by
      unfold matchingTotal
      omega
    exact_mod_cast hle

/-- C9 helper: a string compared with itself scores exactly one. -/
theorem similarity_self (a : List Nat) : similarity a a = 1 := by
  unfold similarity
  split
  · rfl
  · rename_i hne
    rw [matchingTotal_self]
    have hlen : (0 : ℚ) < (a.length : ℚ) + (a.length : ℚ) := by
      have h1 : 0 < a.length + a.length := Nat.pos_of_ne_zero hne
      exact_mod_cast h1
    rw [div_eq_one_iff_eq (ne_of_gt hlen)]
    ring

/-! ### Records, field access and the ranking engine -/

/-- A CSV row as produced by `csv.DictReader`: an ordered association list
of field-name/value pairs (Python dicts preserve insertion order and have
unique keys).  A missing value (`v or ""`) is the empty string. -/
abbrev Record := List (List Nat × List Nat)

/-- `k.strip().lower()`, the key canonicalization of the source. -/
def stripLowerKey (k : List Nat) : List Nat := (strip k).map pyLower

/-- Embeds `_get_field_case_insensitive` (search_solution.py lines 160–164):
first pair whose non-empty key strip-lowers to the requested field name;
empty string when absent. -/
def get_field_case_insensitive : Record → List Nat → List Nat
  | [], _ => []
  | (k, v) :: rest, field =>
    if k ≠ [] ∧ stripLowerKey k = stripLowerKey field then v
    else get_field_case_insensitive rest field

def objectField : List Nat := codes "Объект"
def problemField : List Nat := codes "Проблема"
def queriesField : List Nat := codes "запросы"

/-- Embeds `_get_object_code` (lines 167–171): the "Объект" field, falling
back to the value stored under the empty-string column key (`row.get("")`),
normalized. -/
def get_object_code (row : Record) : List Nat :=
  let val := get_field_case_insensitive row objectField
  normalize
    (if val = [] then
      match row.find? (fun p => p.1.isEmpty) with
      | some p => p.2
      | none => []
    else val)

/-- The separator characters of `_split_queries`: `| ; / \n` and the
sentence punctuation `. ! ?`. -/
def isSepChar (c : Nat) : Bool :=
  c = 124 ∨ c = 59 ∨ c = 47 ∨ c = 10 ∨ c = 46 ∨ c = 33 ∨ c = 63

/-- Splitting on single separator characters.  The source splits on RUNS of
separators (`re.split(r"[|;/\n]+|[.!?]+", text)`); splitting on single
characters instead inserts extra empty segments between adjacent
separators, all of which `_split_queries` discards, so the filtered result
is identical. -/
def splitSeps : List Nat → List Nat → List (List Nat)
  | [], acc => [acc.reverse]
  | c :: rest, acc =>
    if isSepChar c then acc.reverse :: splitSeps rest []
    else splitSeps rest (c :: acc)

/-- Embeds `_split_queries` (lines 174–179): split on separators and
sentence punctuation, strip each part, drop empties.  (`_split_queries("")`
returns `[]` both via the early-exit of the source and here.) -/
def split_queries (t : List Nat) : List (List Nat) :=
  ((splitSeps t []).map strip).filter (fun p => decide (p ≠ []))

example : split_queries (codes "нет звука|звук пропал. тихо") =
    [codes "нет звука", codes "звук пропал", codes "тихо"] := by decide
example : split_queries (codes "") = [] := by decide
example : split_queries (codes " ;; ") = [] := by decide

/-- Embeds the per-candidate score of `find_best_with_object`
(lines 206–209): similarity of the needle against the normalized candidate,
floored at `0.95` when the non-empty needle is a substring of it. -/
def candScore (needle cand : List Nat) : ℚ :=
  if needle ≠ [] ∧ needle <:+: normalize cand
  then max (similarity needle (normalize cand)) (19/20)
  else similarity needle (normalize cand)

/-- Embeds the inner loop of `find_best_with_object` (lines 202–211):
running maximum of the candidate scores, skipping empty candidates,
starting from `0.0`. -/
def bestScore (needle : List Nat) : List (List Nat) → ℚ → ℚ
  | [], best => best
  | cand :: rest, best =>
    if cand = [] then bestScore needle rest best
    else bestScore needle rest (max best (candScore needle cand))

/-- The candidate phrases of one record (line 201): the "Проблема" field
followed by the split "запросы" field. -/
def candidates (row : Record) : List (List Nat) :=
  get_field_case_insensitive row problemField ::
    split_queries (get_field_case_insensitive row queriesField)

/-- Embeds lines 195–198: Python `if object_code:` is false for `None` and
for the empty string, so a row is skipped iff an object code is present,
non-empty, and differs from the row's own normalized object code. -/
def skipRow (oc : Option (List Nat)) (row : Record) : Bool :=
  match oc with
  | none => false
  | some c => decide (c ≠ []) && decide (get_object_code row ≠ normalize c)

/-- Embeds the row loop of `find_best_with_object` (lines 193–212),
producing the `scored` list in row order. -/
def scoredList (needle : List Nat) (oc : Option (List Nat)) :
    List Record → List (ℚ × Record)
  | [] => []
  | row :: rest =>
    if skipRow oc row then scoredList needle oc rest
    else (bestScore needle (candidates row) 0, row) :: scoredList needle oc rest

/-- Stable insertion into a descending-sorted list: the new element goes
after every element of score greater or equal to its own. -/
def insertDesc (p : ℚ × Record) : List (ℚ × Record) → List (ℚ × Record)
  | [] => [p]
  | q :: rest => if p.1 ≤ q.1 then q :: insertDesc p rest else p :: q :: rest

/-- Embeds `scored.sort(key=lambda x: x[0], reverse=True)` (line 213):
Python's sort is stable, also under `reverse=True`, which is exactly
left-to-right stable insertion. -/
def sortDesc (l : List (ℚ × Record)) : List (ℚ × Record) :=
  l.foldl (fun acc p => insertDesc p acc) []

/-- Embeds `find_best_with_object` (lines 186–214). -/
def find_best_with_object (q : List Nat) (rows : List Record) (top_n : Nat)
    (oc : Option (List Nat)) : List (ℚ × Record) :=
  (sortDesc (scoredList (normalize q) oc rows)).take (max top_n 1)

/-- Embeds `find_best` (lines 182–183). -/
def find_best (q : List Nat) (rows : List Record) (top_n : Nat) :
    List (ℚ × Record) :=
  find_best_with_object q rows top_n none

/-- Embeds the body of the candidate loop of `detect_object_code`
(lines 239–243): update the `(best_code, best_len)` state when the
normalized alias is a non-empty substring of the normalized query strictly
longer than the best so far. -/
def detectStep (qn : List Nat) (code : List Nat)
    (st : Option (List Nat) × Nat) (s : List Nat) : Option (List Nat) × Nat :=
  let sn := normalize s
  if sn ≠ [] ∧ sn <:+: qn ∧ st.2 < sn.length then (some code, sn.length) else st

/-- Embeds `detect_object_code` (lines 231–244): for each `(code,
synonyms)` pair of the table, in order, scan `synonyms + [code]` updating
the best state; return the best code (`None` initially). -/
def detect_object_code (q : List Nat)
    (table : List (List Nat × List (List Nat))) : Option (List Nat) :=
  (table.foldl (fun st p => (p.2 ++ [p.1]).foldl (detectStep (normalize q) p.1) st)
    (none, 0)).1

example : detect_object_code (codes "нет звука в зале кп")
    [(codes "кз", [codes "конференц зал"]), (codes "кп", [codes "зале кп"])] =
    some (codes "кп") := by decide
example : detect_object_code (codes "нет звука")
    [(codes "кз", [codes "конференц зал"])] = none := by decide

/-- Embeds one refresh attempt (`start_background_refresh._refresh`,
search_solution.py lines 141–153, and `refresh_rows`, bot.py lines 60–65):
`new_rows = fetch_rows(url); if new_rows: rows = new_rows`.  A failed fetch
is `none`, an empty parsed sheet is `some []`; both are falsy under
`if new_rows:` and leave the active rows unchanged, while a non-empty fetch
replaces them wholesale in a single assignment. -/
def refreshStep (current : List Record) (fetched : Option (List Record)) :
    List Record :=
  match fetched with
  | none => current
  | some l => if l = [] then current else l

/-! ### Specification-side definitions (refinement targets) -/

/-- The per-record score as the specification words it (claim C6): the
maximum over the non-empty candidate phrases of the floored similarity
against the normalized query; exactly `0` when there is no non-empty
candidate phrase. -/
def recordScoreSpec (q : List Nat) (row : Record) : ℚ :=
  (((candidates row).filter (fun c => decide (c ≠ []))).map
    (fun c => candScore (normalize q) c)).foldr max 0

/-- All `(code, alias)` pairs of the synonym table in the scan order of
`detect_object_code`: for each table entry its listed aliases followed by
the code itself. -/
def allAliases (table : List (List Nat × List (List Nat))) :
    List (List Nat × List Nat) :=
  table.flatMap (fun p => (p.2 ++ [p.1]).map (fun s => (p.1, s)))

/-- A `(code, alias)` pair whose normalized alias is a non-empty substring
of the normalized query. -/
def goodAlias (qn : List Nat) (p : List Nat × List Nat) : Bool :=
  decide (normalize p.2 ≠ [] ∧ normalize p.2 <:+: qn)

/-- The normalized character length of an alias, the quantity
`detect_object_code` maximizes. -/
def aliasLen (p : List Nat × List Nat) : Nat := (normalize p.2).length

/-- The contained aliases of the table, in scan order. -/
def goodAliases (qn : List Nat) (l : List (List Nat × List Nat)) :
    List (List Nat × List Nat) :=
  l.filter (goodAlias qn)

/-- Greatest normalized length of a contained alias (at least `bl`). -/
def bestLen (qn : List Nat) (bl : Nat) (l : List (List Nat × List Nat)) : Nat :=
  ((goodAliases qn l).map aliasLen).foldr max bl

/-- `detect_object_code` as claim C7 words it: among the aliases whose
normalization is a non-empty substring of the normalized query, pick the
one of greatest normalized length — on exact length ties the first
encountered in table iteration order — and return its code; `none` when no
alias is contained. -/
def detectSpec (q : List Nat)
    (table : List (List Nat × List (List Nat))) : Option (List Nat) :=
  if bestLen (normalize q) 0 (allAliases table) = 0 then none
  else ((goodAliases (normalize q) (allAliases table)).find?
    (fun p => aliasLen p == bestLen (normalize q) 0 (allAliases table))).map
      Prod.fst

/-- The candidate scan of `detect_object_code`, flattened to a single fold
over `(code, alias)` pairs. -/
def detectFold (qn : List Nat) (st : Option (List Nat) × Nat)
    (l : List (List Nat × List Nat)) : Option (List Nat) × Nat :=
  l.foldl (fun st p => detectStep qn p.1 st p.2) st

/-! ### Sorting lemmas -/

/-- Descending order on scored rows. -/
def scoreGE (a b : ℚ × Record) : Prop := b.1 ≤ a.1

theorem mem_insertDesc {x p : ℚ × Record} :
    ∀ {l : List (ℚ × Record)}, x ∈ insertDesc p l ↔ x = p ∨ x ∈ l := by
  intro l
  induction l with
  | nil => simp [insertDesc]
  | cons q rest ih =>
    rw [insertDesc]
    split
    · rw [List.mem_cons, ih, List.mem_cons]
      tauto
    · simp only [List.mem_cons]

theorem length_insertDesc (p : ℚ × Record) :
    ∀ (l : List (ℚ × Record)), (insertDesc p l).length = l.length + 1 := by
  intro l
  induction l with
  | nil => rfl
  | cons q rest ih =>
    rw [insertDesc]
    split
    · simp [ih]
    · simp

theorem pairwise_insertDesc {p : ℚ × Record} :
    ∀ {l : List (ℚ × Record)}, l.Pairwise scoreGE →
      (insertDesc p l).Pairwise scoreGE := by
  intro l
  induction l with
  | nil => intro _; simp [insertDesc, scoreGE]
  | cons q rest ih =>
    intro hp
    obtain ⟨hq, hrest⟩ := List.pairwise_cons.1 hp
    rw [insertDesc]
    split
    · rename_i hle
      rw [List.pairwise_cons]
      refine ⟨?_, ih hrest⟩
      intro y hy
      rcases mem_insertDesc.1 hy with rfl | hy'
      · exact hle
      · exact hq y hy'
    · rename_i hlt
      rw [List.pairwise_cons]
      refine ⟨?_, hp⟩
      intro y hy
      rcases List.mem_cons.1 hy with rfl | hy'
      · exact le_of_not_le hlt
      · exact le_trans (hq y hy') (le_of_not_le hlt)

theorem filter_insertDesc {s : ℚ} {p : ℚ × Record} :
    ∀ {l : List (ℚ × Record)}, l.Pairwise scoreGE →
      (insertDesc p l).filter (fun x => decide (x.1 = s)) =
        if p.1 = s then l.filter (fun x => decide (x.1 = s)) ++ [p]
        else l.filter (fun x => decide (x.1 = s)) := by
  intro l
  induction l with
  | nil =>
    intro _
    by_cases hp : p.1 = s <;> simp [insertDesc, List.filter, hp]
  | cons q rest ih =>
    intro hpw
    obtain ⟨hq, hrest⟩ := List.pairwise_cons.1 hpw
    rw [insertDesc]
    split
    · rename_i hle
      rw [List.filter_cons, ih hrest]
      by_cases hqs : q.1 = s <;> by_cases hps : p.1 = s <;>
        simp [hqs, hps, List.filter_cons]
    · rename_i hlt
      have hplt : q.1 < p.1 := lt_of_not_le hlt
      by_cases hps : p.1 = s
      · have hnil : (q :: rest).filter (fun x => decide (x.1 = s)) = [] := by
          rw [List.filter_eq_nil_iff]
          intro y hy
          simp only [decide_eq_true_eq]
          intro hys
          rcases List.mem_cons.1 hy with rfl | hy'
          · linarith
          · have hle' := hq y hy'
            unfold scoreGE at hle'
            linarith
        simp [List.filter_cons, hps, hnil]
      · simp [List.filter_cons, hps]

theorem foldl_insert_pairwise :
    ∀ (l acc : List (ℚ × Record)), acc.Pairwise scoreGE →
      (l.foldl (fun acc p => insertDesc p acc) acc).Pairwise scoreGE := by
  intro l
  induction l with
  | nil => intro acc h; exact h
  | cons p rest ih =>
    intro acc h
    rw [List.foldl_cons]
    exact ih _ (pairwise_insertDesc h)

theorem sortDesc_pairwise (l : List (ℚ × Record)) :
    (sortDesc l).Pairwise scoreGE :=
  foldl_insert_pairwise l [] (by simp)

theorem foldl_insert_filter {s : ℚ} :
    ∀ (l acc : List (ℚ × Record)), acc.Pairwise scoreGE →
      (l.foldl (fun acc p => insertDesc p acc) acc).filter
          (fun x => decide (x.1 = s)) =
        acc.filter (fun x => decide (x.1 = s)) ++
          l.filter (fun x => decide (x.1 = s)) := by
  intro l
  induction l with
  | nil => intro acc _; simp
  | cons p rest ih =>
    intro acc h
    rw [List.foldl_cons, ih _ (pairwise_insertDesc h), filter_insertDesc h,
      List.filter_cons]
    by_cases hps : p.1 = s
    · simp [hps]
    · simp [hps]

theorem sortDesc_filter (l : List (ℚ × Record)) (s : ℚ) :
    (sortDesc l).filter (fun x => decide (x.1 = s)) =
      l.filter (fun x => decide (x.1 = s)) := by
  have := foldl_insert_filter (s := s) l [] (by simp)
  simpa [sortDesc] using this

theorem foldl_insert_length :
    ∀ (l acc : List (ℚ × Record)),
      (l.foldl (fun acc p => insertDesc p acc) acc).length =
        acc.length + l.length := by
  intro l
  induction l with
  | nil => intro acc; simp
  | cons p rest ih =>
    intro acc
    rw [List.foldl_cons, ih, length_insertDesc, List.length_cons]
    omega

theorem sortDesc_length (l : List (ℚ × Record)) :
    (sortDesc l).length = l.length := by
  have := foldl_insert_length l []
  simpa [sortDesc] using this

theorem foldl_insert_mem {x : ℚ × Record} :
    ∀ (l acc : List (ℚ × Record)),
      x ∈ l.foldl (fun acc p => insertDesc p acc) acc ↔ x ∈ acc ∨ x ∈ l := by
  intro l
  induction l with
  | nil => intro acc; simp
  | cons p rest ih =>
    intro acc
    rw [List.foldl_cons, ih, mem_insertDesc]
    simp only [List.mem_cons]
    tauto

theorem mem_sortDesc {x : ℚ × Record} {l : List (ℚ × Record)} :
    x ∈ sortDesc l ↔ x ∈ l := by
  have := foldl_insert_mem (x := x) l []
  simpa [sortDesc] using this

/-! ### Scored-list lemmas -/

theorem scoredList_eq (needle : List Nat) (oc : Option (List Nat)) :
    ∀ (rows : List Record),
      scoredList needle oc rows =
        (rows.filter (fun r => !skipRow oc r)).map
          (fun r => (bestScore needle (candidates r) 0, r)) := by
  intro rows
  induction rows with
  | nil => rfl
  | cons row rest ih =>
    rw [scoredList, List.filter_cons]
    cases hs : skipRow oc row with
    | true => simpa [hs] using ih
    | false => simpa [hs] using ih

theorem foldr_max_init {α : Type} [LinearOrder α] (s b : α) :
    ∀ (l : List α), l.foldr max (max b s) = max s (l.foldr max b) := by
  intro l
  induction l with
  | nil => exact max_comm b s
  | cons x xs ih =>
    rw [List.foldr_cons, List.foldr_cons, ih]
    exact max_left_comm x s (xs.foldr max b)

theorem le_foldr_max_self {α : Type} [LinearOrder α] (b : α) :
    ∀ (l : List α), b ≤ l.foldr max b := by
  intro l
  induction l with
  | nil => exact le_refl b
  | cons x xs ih => exact le_trans ih (le_max_right x _)

theorem bestScore_eq (needle : List Nat) :
    ∀ (cands : List (List Nat)) (b : ℚ),
      bestScore needle cands b =
        ((cands.filter (fun c => decide (c ≠ []))).map
          (candScore needle)).foldr max b := by
  intro cands
  induction cands with
  | nil => intro b; rfl
  | cons c rest ih =>
    intro b
    by_cases hc : c = []
    · subst hc
      rw [bestScore, if_pos rfl, ih b, List.filter_cons]
      simp
    · rw [bestScore, if_neg hc, List.filter_cons]
      have hd : (decide (c ≠ []) : Bool) = true := by simp [hc]
      rw [hd, if_pos rfl, List.map_cons, List.foldr_cons,
        ih (max b (candScore needle c)), foldr_max_init]

theorem recordScore_eq_spec (q : List Nat) (row : Record) :
    bestScore (normalize q) (candidates row) 0 = recordScoreSpec q row := by
  rw [recordScoreSpec, bestScore_eq]

/-! ### Object-detection lemmas -/

theorem foldl_detectStep_map (qn code : List Nat) :
    ∀ (cands : List (List Nat)) (st : Option (List Nat) × Nat),
      cands.foldl (detectStep qn code) st =
        detectFold qn st (cands.map (fun s => (code, s))) := by
  intro cands
  induction cands with
  | nil => intro st; rfl
  | cons s ss ih =>
    intro st
    rw [List.foldl_cons, ih]
    rfl

theorem detect_bridge (qn : List Nat) :
    ∀ (table : List (List Nat × List (List Nat))) (st : Option (List Nat) × Nat),
      table.foldl
          (fun st p => (p.2 ++ [p.1]).foldl (detectStep qn p.1) st) st =
        detectFold qn st (allAliases table) := by
  intro table
  induction table with
  | nil => intro st; rfl
  | cons p rest ih =>
    intro st
    rw [List.foldl_cons, ih, foldl_detectStep_map]
    unfold allAliases detectFold
    rw [List.flatMap_cons, List.foldl_append]

/-- Full characterization of the `(best_code, best_len)` scan: starting
from state `(bc, bl)`, either no contained alias is longer than `bl` and the
state is unchanged, or the final state holds the first alias attaining the
maximal length together with that length. -/
theorem detectFold_char (qn : List Nat) :
    ∀ (l : List (List Nat × List Nat)) (bc : Option (List Nat)) (bl : Nat),
      (bestLen qn bl l = bl → detectFold qn (bc, bl) l = (bc, bl)) ∧
      (bl < bestLen qn bl l →
        ∃ p, (goodAliases qn l).find?
            (fun r => aliasLen r == bestLen qn bl l) = some p ∧
          detectFold qn (bc, bl) l = (some p.1, bestLen qn bl l)) := by
  intro l
  induction l with
  | nil =>
    intro bc bl
    constructor
    · intro _; rfl
    · intro h
      exact absurd h (by simp [bestLen, goodAliases])
  | cons p rest ih =>
    intro bc bl
    by_cases hg : normalize p.2 ≠ [] ∧ normalize p.2 <:+: qn
    · have hgb : goodAlias qn p = true := by simp [goodAlias, hg]
      have hfilter : goodAliases qn (p :: rest) = p :: goodAliases qn rest := by
        unfold goodAliases
        rw [List.filter_cons, hgb]
        simp
      have hbest : bestLen qn bl (p :: rest) =
          max (aliasLen p) (bestLen qn bl rest) := by
        unfold bestLen
        rw [hfilter, List.map_cons, List.foldr_cons]
      by_cases hlen : bl < aliasLen p
      · -- the state is updated to (some p.1, aliasLen p)
        have hstep : detectStep qn p.1 (bc, bl) p.2 = (some p.1, aliasLen p) := by
          unfold detectStep aliasLen
          rw [if_pos ⟨hg.1, hg.2, hlen⟩]
        have hfold : detectFold qn (bc, bl) (p :: rest) =
            detectFold qn (some p.1, aliasLen p) rest := by
          unfold detectFold
          simp only [List.foldl_cons, hstep]
        have hb2 : bestLen qn (aliasLen p) rest = bestLen qn bl (p :: rest) := by
          rw [hbest]
          unfold bestLen
          have hm : max bl (aliasLen p) = aliasLen p :=
            Nat.max_eq_right (le_of_lt hlen)
          nth_rewrite 1 [← hm]
          rw [foldr_max_init]
        have hple : aliasLen p ≤ bestLen qn bl (p :: rest) := by
          rw [hbest]; exact Nat.le_max_left _ _
        have hblt : bl < bestLen qn bl (p :: rest) := lt_of_lt_of_le hlen hple
        constructor
        · intro h; omega
        · intro _
          by_cases hmax : aliasLen p = bestLen qn bl (p :: rest)
          · refine ⟨p, ?_, ?_⟩
            · rw [hfilter]
              exact List.find?_cons_of_pos _ (by simp [hmax])
            · rw [hfold]
              have hinit : bestLen qn (aliasLen p) rest = aliasLen p := by
                rw [hb2, ← hmax]
              have := (ih (some p.1) (aliasLen p)).1 hinit
              rw [this, hmax]
          · have hplt : aliasLen p < bestLen qn bl (p :: rest) :=
              lt_of_le_of_ne hple hmax
            have hlt2 : aliasLen p < bestLen qn (aliasLen p) rest := by
              rw [hb2]; exact hplt
            obtain ⟨p', hfind, heq⟩ := (ih (some p.1) (aliasLen p)).2 hlt2
            rw [hb2] at hfind heq
            refine ⟨p', ?_, ?_⟩
            · rw [hfilter]
              rw [List.find?_cons_of_neg _ (by simp [hmax])]
              exact hfind
            · rw [hfold, heq]
      · -- aliasLen p ≤ bl: no update
        have hstep : detectStep qn p.1 (bc, bl) p.2 = (bc, bl) := by
          unfold detectStep
          rw [if_neg]
          intro hcon
          exact hlen (by unfold aliasLen; exact hcon.2.2)
        have hfold : detectFold qn (bc, bl) (p :: rest) =
            detectFold qn (bc, bl) rest := by
          unfold detectFold
          simp only [List.foldl_cons, hstep]
        have hlebl : aliasLen p ≤ bl := Nat.le_of_not_lt hlen
        have hb3 : bestLen qn bl (p :: rest) = bestLen qn bl rest := by
          rw [hbest]
          exact Nat.max_eq_right
            (le_trans hlebl (le_foldr_max_self bl _))
        constructor
        · intro h
          rw [hfold]
          exact (ih bc bl).1 (by rw [← hb3]; exact h)
        · intro h
          rw [hb3] at h
          obtain ⟨p', hfind, heq⟩ := (ih bc bl).2 h
          refine ⟨p', ?_, ?_⟩
          · rw [hfilter, hb3]
            rw [List.find?_cons_of_neg _ (by
              simp only [beq_iff_eq]
              intro hcon
              omega)]
            exact hfind
          · rw [hfold, hb3, heq]
    · -- alias not contained: filtered out and no update
      have hgb : goodAlias qn p = false := by
        simp only [goodAlias, decide_eq_false_iff_not]
        exact hg
      have hfilter : goodAliases qn (p :: rest) = goodAliases qn rest := by
        unfold goodAliases
        rw [List.filter_cons, hgb]
        simp
      have hstep : detectStep qn p.1 (bc, bl) p.2 = (bc, bl) := by
        unfold detectStep
        rw [if_neg]
        intro hcon
        exact hg ⟨hcon.1, hcon.2.1⟩
      have hfold : detectFold qn (bc, bl) (p :: rest) =
          detectFold qn (bc, bl) rest := by
        unfold detectFold
        simp only [List.foldl_cons, hstep]
      have hb3 : bestLen qn bl (p :: rest) = bestLen qn bl rest := by
        unfold bestLen
        rw [hfilter]
      constructor
      · intro h
        rw [hfold]
        exact (ih bc bl).1 (by rw [← hb3]; exact h)
      · intro h
        rw [hb3] at h
        obtain ⟨p', hfind, heq⟩ := (ih bc bl).2 h
        refine ⟨p', ?_, ?_⟩
        · rw [hfilter, hb3]
          exact hfind
        · rw [hfold, hb3, heq]

/-! ### Claim theorems -/

/-- A one-field example record carrying object code "кз", used as concrete
input by witnesses and counterexamples. -/
def exRow : Record := [(objectField, codes "кз")]

/-- C1: Refresh atomicity.  A refresh attempt whose fetch fails (`none`) or
parses an empty record set (`some []`) leaves the active record set
completely unchanged; a fetch yielding a non-empty set replaces the active
set wholly, in one assignment.  (The functional content of the swap is
modelled; the mutual exclusion of the surrounding `threading.Lock` is a
scheduling property outside the embedding.) -/
theorem refresh_atomicity (current : List Record)
    (fetched : Option (List Record)) :
    ((fetched = none ∨ fetched = some []) →
      refreshStep current fetched = current) ∧
    (∀ l, fetched = some l → l ≠ [] → refreshStep current fetched = l) := by
  constructor
  · rintro (rfl | rfl) <;> rfl
  · rintro l rfl hne
    show (if l = [] then current else l) = l
    rw [if_neg hne]

theorem refresh_atomicity_witness :
    refreshStep [exRow] none = [exRow] ∧
    refreshStep [exRow] (some []) = [exRow] ∧
    refreshStep [] (some [exRow]) = [exRow] :=
  ⟨(refresh_atomicity [exRow] none).1 (Or.inl rfl),
   (refresh_atomicity [exRow] (some [])).1 (Or.inr rfl),
   (refresh_atomicity [] (some [exRow])).2 [exRow] rfl (by decide)⟩

/-- C2 counterexample: the claimed lower bound
`min(max(top_n,1), len(records))` fails when a non-matching object code
filters every record out — one record, `top_n = 1`, yet zero results. -/
theorem rank_count_cex :
    ¬ (min (max 1 1) ([exRow] : List Record).length ≤
        (find_best_with_object [] [exRow] 1 (some (codes "кп"))).length) := by
  decide

/-- C2 amended: the result never exceeds `len(records)`; its length is
exactly `min(max(top_n,1), k)` where `k` counts the records surviving the
object filter; and without an object code `k = len(records)`, giving the
originally claimed lower bound. -/
theorem rank_count_amended (q : List Nat) (rows : List Record) (top_n : Nat)
    (oc : Option (List Nat)) :
    (find_best_with_object q rows top_n oc).length ≤ rows.length ∧
    (find_best_with_object q rows top_n oc).length =
      min (max top_n 1) ((rows.filter (fun r => !skipRow oc r)).length) ∧
    (find_best q rows top_n).length = min (max top_n 1) rows.length := by
  have hlen : ∀ oc', (find_best_with_object q rows top_n oc').length =
      min (max top_n 1) ((rows.filter (fun r => !skipRow oc' r)).length) := by
    intro oc'
    unfold find_best_with_object
    rw [List.length_take, sortDesc_length, scoredList_eq, List.length_map]
  refine ⟨?_, hlen oc, ?_⟩
  · rw [hlen oc]
    have hf := List.length_filter_le (fun r => !skipRow oc r) rows
    omega
  · unfold find_best
    rw [hlen none]
    congr 1
    have hall : (fun r : Record => !skipRow none r) = fun _ => true :=
      funext fun r => rfl
    rw [hall, List.filter_true]

/-- C3 counterexample: with `object_code = ""` — non-none, but falsy in
Python — no filtering happens, and a record whose normalized "Объект"
differs from the normalized requested code is returned. -/
theorem scoped_filter_cex :
    (0, exRow) ∈ find_best_with_object [] [exRow] 1 (some []) ∧
    ¬ (get_object_code exRow = normalize []) := by
  constructor
  · exact List.Mem.head _
  · decide

/-- C3 amended: for every non-none and NON-EMPTY object code, every record
returned by `find_best_with_object` has its normalized "Объект" field equal
to the normalized requested code; mismatching records are skipped before
scoring, never down-ranked. -/
theorem scoped_filter_amended (q : List Nat) (rows : List Record)
    (top_n : Nat) (oc : List Nat) (hoc : oc ≠ []) :
    ∀ p ∈ find_best_with_object q rows top_n (some oc),
      get_object_code p.2 = normalize oc := by
  intro p hp
  have h1 : p ∈ sortDesc (scoredList (normalize q) (some oc) rows) :=
    List.mem_of_mem_take hp
  have h2 : p ∈ scoredList (normalize q) (some oc) rows := mem_sortDesc.1 h1
  rw [scoredList_eq] at h2
  obtain ⟨r, hr, rfl⟩ := List.mem_map.1 h2
  have hpass := List.of_mem_filter hr
  by_cases hobj : get_object_code r = normalize oc
  · exact hobj
  · exfalso
    have hskip : skipRow (some oc) r = true := by
      unfold skipRow
      simp [hoc, hobj]
    rw [hskip] at hpass
    simp at hpass

theorem scoped_filter_amended_witness :
    get_object_code exRow = normalize (codes "кз") :=
  scoped_filter_amended [] [exRow] 1 (codes "кз") (by decide) (0, exRow)
    (List.Mem.head _)

/-- C4: substring floor — whenever the normalized query is non-empty and a
substring of the normalized candidate, the score the engine assigns to that
candidate is at least 0.95, whatever the underlying ratio. -/
theorem substring_floor (q cand : List Nat) (h1 : normalize q ≠ [])
    (h2 : normalize q <:+: normalize cand) :
    (19/20 : ℚ) ≤ candScore (normalize q) cand := by
  unfold candScore
  rw [if_pos ⟨h1, h2⟩]
  exact le_max_right _ _

theorem substring_floor_witness :
    (19/20 : ℚ) ≤ candScore (normalize (codes "гори")) (codes "Проектор горит") :=
  substring_floor (codes "гори") (codes "Проектор горит") (by decide) (by decide)

/-- C5: the ranked output is sorted by score descending (each adjacent pair
satisfies `scored[i].score ≥ scored[i+1].score`), and the results of any
exact score value appear in the same relative order as in the pre-sort
scored list, which lists the surviving records in input order (Python's
sort is stable, also with `reverse=True`). -/
theorem rank_sorted_stable (q : List Nat) (rows : List Record) (top_n : Nat)
    (oc : Option (List Nat)) :
    List.Chain' (fun a b => b.1 ≤ a.1)
      (find_best_with_object q rows top_n oc) ∧
    ∀ s : ℚ,
      List.Sublist
        ((find_best_with_object q rows top_n oc).filter
          (fun p => decide (p.1 = s)))
        ((scoredList (normalize q) oc rows).filter
          (fun p => decide (p.1 = s))) := by
  constructor
  · have hp := sortDesc_pairwise (scoredList (normalize q) oc rows)
    have hp2 : (find_best_with_object q rows top_n oc).Pairwise scoreGE :=
      List.Pairwise.sublist (List.take_sublist _ _) hp
    exact List.Pairwise.chain' hp2
  · intro s
    have heq := sortDesc_filter (scoredList (normalize q) oc rows) s
    have hsub : List.Sublist
        ((find_best_with_object q rows top_n oc).filter
          (fun p => decide (p.1 = s)))
        ((sortDesc (scoredList (normalize q) oc rows)).filter
          (fun p => decide (p.1 = s))) :=
      List.Sublist.filter _ (List.take_sublist _ _)
    rwa [heq] at hsub

/-- C6: the scored list pairs every surviving record with the maximum
floored similarity between the normalized query and its non-empty candidate
phrases — the "Проблема" field plus the split "запросы" sub-phrases — and a
record with zero non-empty candidate phrases scores exactly 0. -/
theorem per_record_score (q : List Nat) (rows : List Record)
    (oc : Option (List Nat)) :
    scoredList (normalize q) oc rows =
      (rows.filter (fun r => !skipRow oc r)).map
        (fun r => (recordScoreSpec q r, r)) ∧
    ∀ row : Record,
      (candidates row).filter (fun c => decide (c ≠ [])) = [] →
        recordScoreSpec q row = 0 := by
  constructor
  · rw [scoredList_eq]
    have hfun : (fun r => (bestScore (normalize q) (candidates r) 0, r)) =
        fun r : Record => (recordScoreSpec q r, r) :=
      funext fun r => by rw [recordScore_eq_spec]
    rw [hfun]
  · intro row hemp
    unfold recordScoreSpec
    rw [hemp]
    rfl

theorem per_record_score_witness : recordScoreSpec (codes "x") exRow = 0 :=
  (per_record_score (codes "x") [] none).2 exRow (by decide)

/-- C7: `detect_object_code` returns the code of the longest contained
normalized alias (aliases plus the code itself), first code in table order
on exact length ties, and `none` when no alias is contained — stated as
equality with the specification-side `detectSpec`. -/
theorem detect_longest_match (q : List Nat)
    (table : List (List Nat × List (List Nat))) :
    detect_object_code q table = detectSpec q table := by
  unfold detect_object_code detectSpec
  rw [detect_bridge]
  have hchar := detectFold_char (normalize q) (allAliases table) none 0
  by_cases h0 : bestLen (normalize q) 0 (allAliases table) = 0
  · rw [hchar.1 h0, if_pos h0]
  · rw [if_neg h0]
    obtain ⟨p, hfind, heq⟩ := hchar.2 (Nat.pos_of_ne_zero h0)
    rw [heq, hfind]
    rfl

/-- C8: `normalize` is idempotent; it is case-insensitive (lower-casing a
string first does not change its normalization); and the spec's example
holds: `normalize("Проектор  ГОРИТ") = normalize("проектор горит")`. -/
theorem normalize_idempotent_case_insensitive :
    (∀ x : List Nat, normalize (normalize x) = normalize x) ∧
    (∀ x : List Nat, normalize (x.map pyLower) = normalize x) ∧
    normalize (codes "Проектор  ГОРИТ") = normalize (codes "проектор горит") :=
  ⟨normalize_normalize, normalize_map_pyLower, by decide⟩

/-- C9: similarity scores always lie in `[0, 1]`, and comparing a string
with itself attains the maximal value `1`. -/
theorem similarity_range_self_max :
    (∀ a b : List Nat, 0 ≤ similarity a b ∧ similarity a b ≤ 1) ∧
    (∀ a : List Nat, similarity a a = 1) :=
  ⟨fun a b => ⟨similarity_nonneg a b, similarity_le_one a b⟩, similarity_self⟩

/-- C10: `find_best` is a pure wrapper — it returns exactly
`find_best_with_object` with no object code. -/
theorem find_best_is_wrapper (q : List Nat) (rows : List Record)
    (top_n : Nat) :
    find_best q rows top_n = find_best_with_object q rows top_n none := rfl

end Orion
